import Mathlib

/-!
Shallow embedding of `src/histogram.rs` (crate `lowcharts`): the `Histogram`
bucketing engine and its text renderer `HistWriter`.

Modelling conventions:
* `f64` sample values and bucket bounds are modelled as exact rationals `ℚ`
  (ideal real arithmetic; the program's claims are stated over real values).
  The IEEE special value NaN is modelled separately by `Option ℚ` (`none` =
  NaN) in the `F`-suffixed variants of `find_slot`/`add`, with IEEE
  comparison semantics (every comparison with NaN is false) and the Rust
  `as usize` cast sending NaN to 0.
* `usize` is modelled as `ℕ`; where Rust overflow/saturation semantics
  matter it is made explicit modulo `USIZE = 2 ^ 64` (release-build wrapping
  for `size - 1` in `Histogram::new`, saturation for the `as usize` cast).
* `usize` division by zero panics in Rust; the one place the renderer can
  divide by zero (`hist.top / max_bar_len`) therefore returns an `Option`,
  with `none` modelling the panic.
* `yansi` paint decorations are modelled as the identity on strings, i.e.
  the plain-text layout (styling disabled), matching the spec's statement
  that styling is an independently toggleable no-op concern.
* `writeln!` output is modelled as a list of lines (without the trailing
  newline characters).
-/

/-- The number of values of `usize`: `2 ^ 64`. -/
def USIZE : ℕ := 2 ^ 64

/-- Modelled from the spec: `Stats` lives in `src/stats.rs`, which is not part
of this slice; per spec §2/§6 the `StatsSummary` collaborator exposes `min`
and `max` of the raw samples, and the histogram uses only `min`. -/
structure Stats where
  min : ℚ
  max : ℚ
deriving DecidableEq

/-- Models Rust `std::ops::Range<f64>`; the field `stop` stands for Rust's
`end` (a Lean keyword). -/
structure Rng where
  start : ℚ
  stop : ℚ
deriving DecidableEq

/-- Models `struct Bucket { range: Range<f64>, count: usize }`. -/
structure Bucket where
  range : Rng
  count : ℕ
deriving DecidableEq

/-- Models `Bucket::new(range)`. -/
def Bucket.new (range : Rng) : Bucket :=
  { range := range, count := 0 }

/-- Models `Bucket::inc`: `self.count += 1`. -/
def Bucket.inc (b : Bucket) : Bucket :=
  { b with count := b.count + 1 }

/-- Models `struct Histogram { vec, max, step, top, last, stats }`. -/
structure Histogram where
  vec : List Bucket
  max : ℚ
  step : ℚ
  top : ℕ
  last : ℕ
  stats : Stats
deriving DecidableEq

/-- The bucket-construction loop of `Histogram::new`: starting at `lower`,
push `n` buckets `lower..lower + step`, advancing `lower += step`. -/
def mkBuckets (lower step : ℚ) : ℕ → List Bucket
  | 0 => []
  | n + 1 => Bucket.new ⟨lower, lower + step⟩ :: mkBuckets (lower + step) step n

/-- Models `Histogram::new(size, step, stats)`.  There is no argument
validation in the source.  `last` is `size - 1` on `usize`: in a release
build this wraps modulo `2 ^ 64` (so `size == 0` yields `usize::MAX`),
which we model explicitly. -/
def Histogram.new (size : ℕ) (step : ℚ) (stats : Stats) : Histogram :=
  { vec := mkBuckets stats.min step size
    max := stats.min + step * size
    step := step
    top := 0
    last := (size + (USIZE - 1)) % USIZE
    stats := stats }

/-- Models the Rust cast `q as usize` for a finite `f64` value `q`:
truncation toward zero, saturating below at 0 and above at
`usize::MAX = USIZE - 1`.  (For `q ≥ 0` truncation toward zero is `⌊q⌋`.) -/
def f64ToUsize (q : ℚ) : ℕ :=
  if q < 0 then 0 else min (Int.toNat ⌊q⌋) (USIZE - 1)

/-- Models `Histogram::find_slot` for finite (non-NaN) inputs:
`if n < self.stats.min || n > self.max { None } else
{ Some((((n - self.stats.min) / self.step) as usize).min(self.last)) }`. -/
def Histogram.find_slot (h : Histogram) (n : ℚ) : Option ℕ :=
  if n < h.stats.min ∨ h.max < n then none
  else some (min (f64ToUsize ((n - h.stats.min) / h.step)) h.last)

/-- Models `Histogram::add` for finite (non-NaN) inputs: on a found slot,
increment that bucket and update `top` with the bucket's new count.
`self.vec[slot]` panics if `slot` is out of bounds; that branch (returning
`h` here) is unreachable for histograms built by `Histogram.new` with
`size ≥ 1`, since `slot ≤ last = size - 1 < vec.length`. -/
def Histogram.add (h : Histogram) (n : ℚ) : Histogram :=
  match h.find_slot n with
  | none => h
  | some slot =>
    match h.vec[slot]? with
    | none => h
    | some b =>
      { h with
        vec := h.vec.set slot b.inc
        top := Nat.max h.top b.inc.count }

/-- Models `Histogram::load`: `for x in vec { self.add(*x); }`. -/
def Histogram.load (h : Histogram) (vec : List ℚ) : Histogram :=
  vec.foldl Histogram.add h

/-! ### IEEE (NaN-aware) variants

`f64` with NaN is modelled as `Option ℚ` (`none` = NaN).  These mirror
`find_slot`/`add` exactly, with IEEE comparison semantics: any `<` or `>`
comparison against NaN is false, NaN propagates through `-` and `/`, and
the Rust cast `NaN as usize` evaluates to 0. -/

/-- IEEE `<` against a finite right-hand side: false when the left side is
NaN. -/
def fltF (a : Option ℚ) (b : ℚ) : Bool :=
  match a with
  | none => false
  | some x => decide (x < b)

/-- IEEE `>` against a finite right-hand side: false when the left side is
NaN. -/
def fgtF (a : Option ℚ) (b : ℚ) : Bool :=
  match a with
  | none => false
  | some x => decide (b < x)

/-- IEEE subtraction of a finite value: NaN propagates. -/
def fsubF (a : Option ℚ) (b : ℚ) : Option ℚ :=
  a.map (fun x => x - b)

/-- IEEE division by a finite value: NaN propagates (a zero divisor would
produce an infinity or NaN; the histogram only divides by `step`, and the
claims using this model assume `step > 0`). -/
def fdivF (a : Option ℚ) (b : ℚ) : Option ℚ :=
  match a with
  | none => none
  | some x => if b = 0 then none else some (x / b)

/-- The Rust cast `v as usize` including the NaN case: NaN casts to 0. -/
def f64ToUsizeF (a : Option ℚ) : ℕ :=
  match a with
  | none => 0
  | some q => f64ToUsize q

/-- `Histogram::find_slot` over NaN-aware values: same text as `find_slot`,
with IEEE comparison and arithmetic semantics. -/
def Histogram.find_slotF (h : Histogram) (n : Option ℚ) : Option ℕ :=
  if fltF n h.stats.min || fgtF n h.max then none
  else some (min (f64ToUsizeF (fdivF (fsubF n h.stats.min) h.step)) h.last)

/-- `Histogram::add` over NaN-aware values. -/
def Histogram.addF (h : Histogram) (n : Option ℚ) : Histogram :=
  match h.find_slotF n with
  | none => h
  | some slot =>
    match h.vec[slot]? with
    | none => h
    | some b =>
      { h with
        vec := h.vec.set slot b.inc
        top := Nat.max h.top b.inc.count }

/-! ### Rendering (`HistWriter`) -/

/-- Rounding to the nearest integer, ties to even: the rounding Rust float
formatting applies when truncating a value to a fixed number of decimals. -/
def roundHalfEven (q : ℚ) : ℤ :=
  let f := ⌊q⌋
  let r := q - f
  if r < 1 / 2 then f
  else if 1 / 2 < r then f + 1
  else if f % 2 = 0 then f else f + 1

/-- Decimal rendering of `n` thousandths with exactly three decimal places:
`fmtMilli 10500 = "10.500"`. -/
def fmtMilli (n : ℤ) : String :=
  let a := n.natAbs
  let fr := Nat.repr (a % 1000)
  (if n < 0 then "-" else "") ++ Nat.repr (a / 1000) ++ "." ++
    String.mk (List.replicate (3 - fr.length) '0') ++ fr

/-- Models the Rust format `{:.3}` applied to a (finite) `f64`: the value
rounded to three decimal places, ties to even.  (A negative value rounding
to zero prints as `0.000` here rather than Rust's `-0.000`; no formatted
value in this development is of that form.) -/
def fmt3 (q : ℚ) : String :=
  fmtMilli (roundHalfEven (q * 1000))

/-- Models the Rust width specifier `{:width$...}` for right-aligned
(numeric) arguments: left-pad with spaces to at least `width` characters. -/
def padLeft (width : ℕ) (s : String) : String :=
  String.mk (List.replicate (width - s.length) ' ') ++ s

/-- Models `HistWriter::get_width`: the longer of the `{:.3}` renderings of
`stats.min` and `max`. -/
def HistWriter.get_width (hist : Histogram) : ℕ :=
  Nat.max (fmt3 hist.stats.min).length (fmt3 hist.max).length

/-- Fuel-based computation of `⌈log10 n⌉` (0 for `n ≤ 1`), mirroring the
recurrence `⌈log10 n⌉ = ⌈log10 ⌈n / 10⌉⌉ + 1`; the fuel argument only
forces termination and is irrelevant once `n ≤ fuel`
(see `ceilLog10_eq_clog`). -/
def ceilLog10Aux : ℕ → ℕ → ℕ
  | 0, _ => 0
  | fuel + 1, n => if n ≤ 1 then 0 else ceilLog10Aux fuel ((n + 9) / 10) + 1

/-- Models `(n as f64).log10().ceil() as usize` for a `usize` count `n`:
the exact mathematical `⌈log10 n⌉` for `n ≥ 1`; for `n = 0`, `log10`
returns `-∞` and the saturating cast yields 0. -/
def ceilLog10 (n : ℕ) : ℕ :=
  ceilLog10Aux n n

/-- Models the `width_count` computation of `HistWriter::write`:
`((hist.top as f64).log10().ceil() as usize).max(1)`. -/
def HistWriter.width_count (hist : Histogram) : ℕ :=
  Nat.max (ceilLog10 hist.top) 1

/-- Models `HistWriter::get_max_bar_len(fixed_width)` for a writer of the
given target `width`: fall back to 75 when the target width is smaller than
`fixed_width + 10`, else `width - fixed_width - 10`. -/
def HistWriter.get_max_bar_len (width fixed_width : ℕ) : ℕ :=
  if width < fixed_width + 10 then 75 else width - fixed_width - 10

/-- Models the `divisor` computation of `HistWriter::write`:
`1.max(hist.top / self.get_max_bar_len(width_range + width_count))`.
Rust `usize` division panics when the divisor is zero; `none` models that
panic. -/
def HistWriter.divisor (width : ℕ) (hist : Histogram) : Option ℕ :=
  let m := HistWriter.get_max_bar_len width
    (HistWriter.get_width hist + HistWriter.width_count hist)
  if m = 0 then none else some (Nat.max 1 (hist.top / m))

/-- Models the `bar` computation of `HistWriter::write_bucket`:
`format!("{:∎<width$}", "", width = bucket.count / divisor)`, i.e.
`count / divisor` copies of the glyph. -/
def HistWriter.bar_of (count divisor : ℕ) : String :=
  String.mk (List.replicate (count / divisor) '∎')

/-- Models the line `HistWriter::write_bucket` emits (without the trailing
newline): `[{range}] [{count}] {bar}` with the range ends formatted
`{:width$.3}` and the count `{:width_count$}`. -/
def HistWriter.write_bucket (b : Bucket) (divisor width width_count : ℕ) : String :=
  "[" ++ padLeft width (fmt3 b.range.start) ++ " .. " ++
    padLeft width (fmt3 b.range.stop) ++ "] [" ++
    padLeft width_count (Nat.repr b.count) ++ "] " ++
    HistWriter.bar_of b.count divisor

/-- Models the header line of `HistWriter::write`. -/
def HistWriter.header (divisor : ℕ) : String :=
  "each ∎ represents a count of " ++ Nat.repr divisor

/-- Models `HistWriter::write` for a writer of the given target `width`:
the header line followed by one line per bucket.  `none` models the
division-by-zero panic in the `divisor` computation. -/
def HistWriter.write (width : ℕ) (hist : Histogram) : Option (List String) :=
  (HistWriter.divisor width hist).map (fun d =>
    HistWriter.header d ::
      hist.vec.map (fun b =>
        HistWriter.write_bucket b d (HistWriter.get_width hist)
          (HistWriter.width_count hist)))

/-- Models the `fmt::Display` impl for `Histogram`: the writer is built with
`f.width().unwrap_or(110)`.  (The impl first writes the stats summary —
out of scope per spec §1 — and then these histogram lines.) -/
def Histogram.render (h : Histogram) (w : Option ℕ) : Option (List String) :=
  HistWriter.write (w.getD 110) h

/-! ### Spec-side definitions (for refinement-style comparison)

These follow the spec's words, not the source, and exist only to be
compared against the source-derived definitions above. -/

/-- Spec §4.2 step 3, in the spec's words: "`maxBarLength`: if
`targetWidth < rangeLabelWidth + countLabelWidth + 10`, use a fallback
constant of 75; otherwise `targetWidth - rangeLabelWidth - countLabelWidth
- 10`". -/
def specMaxBarLength (targetWidth rangeLabelWidth countLabelWidth : ℕ) : ℕ :=
  if targetWidth < rangeLabelWidth + countLabelWidth + 10 then 75
  else targetWidth - rangeLabelWidth - countLabelWidth - 10

/-! ### Observers used to state the claims -/

/-- The list of bucket counts of a histogram. -/
def counts (h : Histogram) : List ℕ :=
  h.vec.map Bucket.count

/-- The true maximum bucket count (0 for no buckets). -/
def maxCounts (h : Histogram) : ℕ :=
  (counts h).foldr Nat.max 0

/-- The total number of samples recorded across all buckets. -/
def sumCounts (h : Histogram) : ℕ :=
  (counts h).sum

/-- One `add` step, projected onto the list of bucket counts: given the
slot `find_slot` returned (if any), bump that count.  Used to compute
loaded histograms without re-evaluating the rational arithmetic at every
intermediate state. -/
def stepCounts (os : Option ℕ) (cs : List ℕ) : List ℕ :=
  match os with
  | none => cs
  | some k =>
    match cs[k]? with
    | none => cs
    | some c => cs.set k (c + 1)

/-- One `add` step, projected onto `top`. -/
def stepTop (os : Option ℕ) (cs : List ℕ) (t : ℕ) : ℕ :=
  match os with
  | none => t
  | some k =>
    match cs[k]? with
    | none => t
    | some c => Nat.max t (c + 1)

/-- The `(counts, top)` state after a sequence of `add` steps with the
given slots. -/
def simulate (slots : List (Option ℕ)) (st : List ℕ × ℕ) : List ℕ × ℕ :=
  slots.foldl (fun st os => (stepCounts os st.1, stepTop os st.1 st.2)) st

/-! ### Concrete instances used by witnesses and counterexamples -/

/-- The stats of the repository's own test: `Stats::new(&[-2.0, 14.0])`
has `min = -2` and `max = 14`. -/
def statsT : Stats :=
  { min := -2, max := 14 }

/-- The histogram of the repository's test `basic_test`/`display_test`:
`Histogram::new(8, 2.5, stats)`. -/
def histT0 : Histogram :=
  Histogram.new 8 (5 / 2) statsT

/-- The sample list of the repository's test. -/
def samplesT : List ℚ :=
  [-1, -11/10, 2, 2, 21/10, -9/10, 11, 56/5, 19/10, 199/100, 99/50, 197/100, 49/25]

/-- The loaded test histogram. -/
def histT : Histogram :=
  histT0.load samplesT

/-- A single-bucket histogram over `[0, 1)`. -/
def histC70 : Histogram :=
  Histogram.new 1 1 { min := 0, max := 1 }

/-- `histC70` after ten in-range samples: `top = 10`. -/
def histC7 : Histogram :=
  histC70.load (List.replicate 10 (1 / 2))

/-!
## Helper lemmas
-/

/-- If a list holds `x` at position `k`, writing `x` there changes
nothing. -/
lemma set_getElem?_self {α : Type} (l : List α) (k : ℕ) (x : α)
    (h : l[k]? = some x) : l.set k x = l := by
  induction l generalizing k with
  | nil => simp at h
  | cons a t ih =>
    cases k with
    | zero =>
      simp only [List.getElem?_cons_zero, Option.some.injEq] at h
      simp [h]
    | succ k =>
      simp only [List.getElem?_cons_succ] at h
      simp [ih k h]

/-- `add` never changes the `max`, `step`, `last` and `stats` fields. -/
lemma Histogram.add_fields (h : Histogram) (v : ℚ) :
    (h.add v).max = h.max ∧ (h.add v).step = h.step ∧
      (h.add v).last = h.last ∧ (h.add v).stats = h.stats := by
  cases hfs : h.find_slot v with
  | none => simp [Histogram.add, hfs]
  | some k =>
    cases hb : h.vec[k]? with
    | none => simp [Histogram.add, hfs, hb]
    | some b => simp [Histogram.add, hfs, hb]

/-- `add` never changes the number of buckets. -/
lemma Histogram.add_length (h : Histogram) (v : ℚ) :
    (h.add v).vec.length = h.vec.length := by
  cases hfs : h.find_slot v with
  | none => simp [Histogram.add, hfs]
  | some k =>
    cases hb : h.vec[k]? with
    | none => simp [Histogram.add, hfs, hb]
    | some b => simp [Histogram.add, hfs, hb]

/-- `find_slot` reads only the fields `add` preserves, so it is stable
under `add`. -/
lemma Histogram.find_slot_add (h : Histogram) (v w : ℚ) :
    (h.add v).find_slot w = h.find_slot w := by
  obtain ⟨h1, h2, h3, h4⟩ := h.add_fields v
  unfold Histogram.find_slot
  rw [h1, h2, h3, h4]

/-- A returned slot is at most `last`. -/
lemma Histogram.find_slot_le_last (h : Histogram) {v : ℚ} {k : ℕ}
    (hk : h.find_slot v = some k) : k ≤ h.last := by
  unfold Histogram.find_slot at hk
  split at hk
  · exact absurd hk (by simp)
  · exact (Option.some_injective _ hk) ▸ Nat.min_le_right _ _

/-- `find_slot` returns `none` exactly on samples outside `[min, max]`. -/
lemma Histogram.find_slot_eq_none (h : Histogram) (v : ℚ) :
    h.find_slot v = none ↔ (v < h.stats.min ∨ h.max < v) := by
  unfold Histogram.find_slot
  split <;> simp_all

/-- The counts of `h.add v` are `stepCounts` of the counts of `h`. -/
lemma add_counts_eq (h : Histogram) (v : ℚ) :
    counts (h.add v) = stepCounts (h.find_slot v) (counts h) := by
  cases hfs : h.find_slot v with
  | none => simp [Histogram.add, stepCounts, hfs]
  | some k =>
    cases hb : h.vec[k]? with
    | none =>
      simp [Histogram.add, stepCounts, hfs, hb, counts, List.getElem?_map]
    | some b =>
      simp [Histogram.add, stepCounts, hfs, hb, counts, List.getElem?_map,
        List.map_set, Bucket.inc]

/-- The `top` of `h.add v` is `stepTop` of the state of `h`. -/
lemma add_top_eq (h : Histogram) (v : ℚ) :
    (h.add v).top = stepTop (h.find_slot v) (counts h) h.top := by
  cases hfs : h.find_slot v with
  | none => simp [Histogram.add, stepTop, hfs]
  | some k =>
    cases hb : h.vec[k]? with
    | none =>
      simp [Histogram.add, stepTop, hfs, hb, counts, List.getElem?_map]
    | some b =>
      simp [Histogram.add, stepTop, hfs, hb, counts, List.getElem?_map, Bucket.inc]

/-- Loading simulates: the `(counts, top)` state of a loaded histogram is
the pure `simulate` of the slot sequence of the samples. -/
lemma load_simulate (h : Histogram) (vs : List ℚ) :
    counts (h.load vs) = (simulate (vs.map h.find_slot) (counts h, h.top)).1 ∧
      (h.load vs).top = (simulate (vs.map h.find_slot) (counts h, h.top)).2 := by
  induction vs generalizing h with
  | nil => exact ⟨rfl, rfl⟩
  | cons v vs ih =>
    have hmap : vs.map (h.add v).find_slot = vs.map h.find_slot := by
      simp [Histogram.find_slot_add]
    have hload : h.load (v :: vs) = (h.add v).load vs := rfl
    obtain ⟨ih1, ih2⟩ := ih (h.add v)
    rw [hload]
    constructor
    · rw [ih1, hmap, add_counts_eq, add_top_eq]
      rfl
    · rw [ih2, hmap, add_counts_eq, add_top_eq]
      rfl

/-- `add` preserves the ranges of all buckets. -/
lemma ranges_add (h : Histogram) (v : ℚ) :
    (h.add v).vec.map Bucket.range = h.vec.map Bucket.range := by
  cases hfs : h.find_slot v with
  | none => simp [Histogram.add, hfs]
  | some k =>
    cases hb : h.vec[k]? with
    | none => simp [Histogram.add, hfs, hb]
    | some b =>
      have hr : (h.vec.map Bucket.range)[k]? = some b.range := by
        simp [List.getElem?_map, hb]
      simp only [Histogram.add, hfs, hb, List.map_set, Bucket.inc]
      exact set_getElem?_self _ _ _ hr

/-- `load` preserves the ranges of all buckets. -/
lemma ranges_load (h : Histogram) (vs : List ℚ) :
    (h.load vs).vec.map Bucket.range = h.vec.map Bucket.range := by
  induction vs generalizing h with
  | nil => rfl
  | cons v vs ih => exact (ih (h.add v)).trans (ranges_add h v)

/-- `load` preserves the fields `add` preserves. -/
lemma Histogram.load_fields (h : Histogram) (vs : List ℚ) :
    (h.load vs).max = h.max ∧ (h.load vs).step = h.step ∧
      (h.load vs).last = h.last ∧ (h.load vs).stats = h.stats := by
  induction vs generalizing h with
  | nil => exact ⟨rfl, rfl, rfl, rfl⟩
  | cons v vs ih =>
    obtain ⟨i1, i2, i3, i4⟩ := ih (h.add v)
    obtain ⟨a1, a2, a3, a4⟩ := h.add_fields v
    exact ⟨i1.trans a1, i2.trans a2, i3.trans a3, i4.trans a4⟩

/-- A list of buckets is recovered from its range and count projections. -/
lemma zipWith_mk_range_count (l : List Bucket) :
    List.zipWith Bucket.mk (l.map Bucket.range) (l.map Bucket.count) = l := by
  induction l with
  | nil => rfl
  | cons b t ih => simp [ih]

/-- The buckets built by `mkBuckets` have length `n`. -/
lemma mkBuckets_length (lower step : ℚ) (n : ℕ) :
    (mkBuckets lower step n).length = n := by
  induction n generalizing lower with
  | zero => rfl
  | succ n ih => simp [mkBuckets, ih]

/-- Bucket `i` of `mkBuckets lower step n` spans
`[lower + i*step, lower + (i+1)*step)` and starts with count 0. -/
lemma mkBuckets_getElem? (step : ℚ) (n : ℕ) :
    ∀ (lower : ℚ) (i : ℕ), i < n →
      (mkBuckets lower step n)[i]? =
        some ⟨⟨lower + i * step, lower + (i + 1) * step⟩, 0⟩ := by
  induction n with
  | zero => intro lower i hi; omega
  | succ n ih =>
    intro lower i hi
    cases i with
    | zero =>
      simp [mkBuckets, Bucket.new]
    | succ i =>
      have := ih (lower + step) i (by omega)
      simp only [mkBuckets, List.getElem?_cons_succ, this]
      have e1 : lower + step + i * step = lower + (i + 1 : ℕ) * step := by
        push_cast
        ring
      have e2 : lower + step + ((i : ℚ) + 1) * step = lower + ((i + 1 : ℕ) + 1) * step := by
        push_cast
        ring
      rw [e1, e2]

/-- All counts of `mkBuckets` are zero. -/
lemma mkBuckets_counts (lower step : ℚ) (n : ℕ) :
    (mkBuckets lower step n).map Bucket.count = List.replicate n 0 := by
  induction n generalizing lower with
  | zero => rfl
  | succ n ih => simp [mkBuckets, Bucket.new, ih, List.replicate]

/-- Raising the entry at `k` from `c` to `c + 1` raises the running
maximum to at least `c + 1` and changes nothing else. -/
lemma foldr_max_set (cs : List ℕ) :
    ∀ (k c : ℕ), cs[k]? = some c →
      (cs.set k (c + 1)).foldr Nat.max 0 = Nat.max (cs.foldr Nat.max 0) (c + 1) := by
  induction cs with
  | nil =>
    intro k c h
    simp at h
  | cons a t ih =>
    intro k c h
    cases k with
    | zero =>
      simp only [List.getElem?_cons_zero, Option.some.injEq] at h
      subst h
      simp only [List.set_cons_zero, List.foldr_cons]
      simp only [Nat.max_def]
      split_ifs <;> omega
    | succ k =>
      simp only [List.getElem?_cons_succ] at h
      simp only [List.set_cons_succ, List.foldr_cons, ih k c h]
      simp only [Nat.max_def]
      split_ifs <;> omega

/-- Raising the entry at `k` by one raises the sum by one. -/
lemma sum_set_succ (cs : List ℕ) :
    ∀ (k c : ℕ), cs[k]? = some c → (cs.set k (c + 1)).sum = cs.sum + 1 := by
  induction cs with
  | nil =>
    intro k c h
    simp at h
  | cons a t ih =>
    intro k c h
    cases k with
    | zero =>
      simp only [List.getElem?_cons_zero, Option.some.injEq] at h
      subst h
      simp only [List.set_cons_zero, List.sum_cons]
      omega
    | succ k =>
      simp only [List.getElem?_cons_succ] at h
      simp only [List.set_cons_succ, List.sum_cons, ih k c h]
      omega

/-- For `1 ≤ size < 2 ^ 64` the wrapping `size - 1` of `Histogram::new` is
the ordinary `size - 1`. -/
lemma new_last (size : ℕ) (step : ℚ) (stats : Stats)
    (hsz : 0 < size) (hszU : size < USIZE) :
    (Histogram.new size step stats).last = size - 1 := by
  show (size + (USIZE - 1)) % USIZE = size - 1
  have hU : USIZE = 18446744073709551616 := by norm_num [USIZE]
  rw [hU] at hszU ⊢
  omega

/-- The freshly built bucket list has `size` entries. -/
lemma new_length (size : ℕ) (step : ℚ) (stats : Stats) :
    (Histogram.new size step stats).vec.length = size :=
  mkBuckets_length stats.min step size

/-- One `add` preserves the invariant `top = maxCounts`. -/
lemma add_top_inv (h : Histogram) (hlen : h.vec.length = h.last + 1)
    (htop : h.top = maxCounts h) (v : ℚ) :
    (h.add v).top = maxCounts (h.add v) := by
  rw [add_top_eq, maxCounts, add_counts_eq]
  cases hfs : h.find_slot v with
  | none => simp [stepTop, stepCounts, htop, maxCounts]
  | some k =>
    have hk : k ≤ h.last := h.find_slot_le_last hfs
    have hklen : k < (counts h).length := by
      simp only [counts, List.length_map]
      omega
    obtain ⟨c, hc⟩ : ∃ c, (counts h)[k]? = some c :=
      ⟨(counts h)[k], List.getElem?_eq_getElem hklen⟩
    simp only [stepTop, stepCounts, hc]
    rw [foldr_max_set _ _ _ hc, htop, maxCounts]

/-- `add` can only increase `top`. -/
lemma add_top_mono (h : Histogram) (v : ℚ) : h.top ≤ (h.add v).top := by
  rw [add_top_eq]
  cases hfs : h.find_slot v with
  | none => exact Nat.le_refl _
  | some k =>
    cases hc : (counts h)[k]? with
    | none => simp [stepTop, hc]
    | some c => simp [stepTop, hc, Nat.le_max_left]

/-- `load` preserves the invariant `top = maxCounts` (and the length
coherence it needs). -/
lemma load_top_inv (vs : List ℚ) :
    ∀ (h : Histogram), h.vec.length = h.last + 1 → h.top = maxCounts h →
      (h.load vs).top = maxCounts (h.load vs) := by
  induction vs with
  | nil =>
    intro h _ htop
    exact htop
  | cons v vs ih =>
    intro h hlen htop
    have hlen2 : (h.add v).vec.length = (h.add v).last + 1 := by
      rw [h.add_length v, (h.add_fields v).2.2.1]
      exact hlen
    exact ih (h.add v) hlen2 (add_top_inv h hlen htop v)

/-- One `add` adds one to the total count exactly on in-range samples. -/
lemma add_sum (h : Histogram) (hlen : h.vec.length = h.last + 1) (v : ℚ) :
    sumCounts (h.add v) =
      sumCounts h + (if h.stats.min ≤ v ∧ v ≤ h.max then 1 else 0) := by
  rw [sumCounts, add_counts_eq]
  cases hfs : h.find_slot v with
  | none =>
    have hcond : v < h.stats.min ∨ h.max < v := (h.find_slot_eq_none v).mp hfs
    have : ¬(h.stats.min ≤ v ∧ v ≤ h.max) := by
      rcases hcond with hc | hc
      · exact fun hx => absurd hx.1 (not_le.mpr hc)
      · exact fun hx => absurd hx.2 (not_le.mpr hc)
    simp [stepCounts, sumCounts, this]
  | some k =>
    have hcond : ¬(v < h.stats.min ∨ h.max < v) := by
      intro hc
      rw [(h.find_slot_eq_none v).mpr hc] at hfs
      exact absurd hfs (by simp)
    have hin : h.stats.min ≤ v ∧ v ≤ h.max := by
      push_neg at hcond
      exact ⟨hcond.1, hcond.2⟩
    have hk : k ≤ h.last := h.find_slot_le_last hfs
    have hklen : k < (counts h).length := by
      simp only [counts, List.length_map]
      omega
    obtain ⟨c, hc⟩ : ∃ c, (counts h)[k]? = some c :=
      ⟨(counts h)[k], List.getElem?_eq_getElem hklen⟩
    simp only [stepCounts, hc, if_pos hin]
    rw [sum_set_succ _ _ _ hc, sumCounts]

/-- `load` adds to the total count exactly the number of in-range
samples. -/
lemma load_sum (vs : List ℚ) :
    ∀ (h : Histogram), h.vec.length = h.last + 1 →
      sumCounts (h.load vs) =
        sumCounts h +
          (vs.filter (fun v => decide (h.stats.min ≤ v ∧ v ≤ h.max))).length := by
  induction vs with
  | nil =>
    intro h _
    simp [Histogram.load]
  | cons v vs ih =>
    intro h hlen
    have hlen2 : (h.add v).vec.length = (h.add v).last + 1 := by
      rw [h.add_length v, (h.add_fields v).2.2.1]
      exact hlen
    have hload : h.load (v :: vs) = (h.add v).load vs := rfl
    rw [hload, ih (h.add v) hlen2, (h.add_fields v).1, (h.add_fields v).2.2.2,
      add_sum h hlen v, List.filter_cons]
    cases hd : decide (h.stats.min ≤ v ∧ v ≤ h.max) with
    | false =>
      rw [if_neg (of_decide_eq_false hd)]
      simp only [hd, Bool.false_eq_true, if_false]
      omega
    | true =>
      rw [if_pos (of_decide_eq_true hd)]
      simp only [hd, if_true, List.length_cons]
      omega

/-- The fuel in `ceilLog10Aux` is irrelevant once it dominates `n`, and the
function then computes `Nat.clog 10`. -/
lemma ceilLog10Aux_eq :
    ∀ (fuel n : ℕ), n ≤ fuel → ceilLog10Aux fuel n = Nat.clog 10 n := by
  intro fuel
  induction fuel with
  | zero =>
    intro n hn
    have : n = 0 := Nat.le_zero.mp hn
    subst this
    simp [ceilLog10Aux]
  | succ f ih =>
    intro n hn
    by_cases h1 : n ≤ 1
    · simp [ceilLog10Aux, h1, Nat.clog_of_right_le_one h1]
    · have h2 : 2 ≤ n := by omega
      have hstep : ceilLog10Aux (f + 1) n = ceilLog10Aux f ((n + 9) / 10) + 1 := by
        simp [ceilLog10Aux, h1]
      rw [hstep, ih _ (by omega), Nat.clog_of_two_le (by norm_num) h2]
      norm_num

/-- `ceilLog10` is the mathematical ceiling logarithm `Nat.clog 10`. -/
lemma ceilLog10_eq_clog (n : ℕ) : ceilLog10 n = Nat.clog 10 n :=
  ceilLog10Aux_eq n n (Nat.le_refl n)

/-- `add` at a found slot with a present bucket: the exact state update of
the source. -/
lemma add_eval (h : Histogram) (v : ℚ) (k : ℕ) (b : Bucket)
    (hfs : h.find_slot v = some k) (hb : h.vec[k]? = some b) :
    h.add v =
      { h with vec := h.vec.set k b.inc, top := Nat.max h.top b.inc.count } := by
  simp [Histogram.add, hfs, hb]

/-- `add` on an out-of-range sample changes nothing at all. -/
lemma add_no_op (h : Histogram) (v : ℚ)
    (hout : v < h.stats.min ∨ h.max < v) : h.add v = h := by
  simp [Histogram.add, (h.find_slot_eq_none v).mpr hout]

/-- In-range samples resolve to the clamped floor slot. -/
lemma find_slot_in_range (h : Histogram) (v : ℚ)
    (hU : h.last ≤ USIZE - 1) (hstep : 0 < h.step)
    (hmin : h.stats.min ≤ v) (hmax : v ≤ h.max) :
    h.find_slot v =
      some (min (Int.toNat ⌊(v - h.stats.min) / h.step⌋) h.last) := by
  unfold Histogram.find_slot
  rw [if_neg (by push_neg; exact ⟨hmin, hmax⟩)]
  congr 1
  unfold f64ToUsize
  have hr : ¬((v - h.stats.min) / h.step < 0) :=
    not_lt.mpr (div_nonneg (sub_nonneg.mpr hmin) hstep.le)
  rw [if_neg hr, Nat.min_assoc, Nat.min_eq_right hU]

/-- At `v = max` (with the constructed coherence `max = min + step*(last+1)`)
the unclamped ratio is exactly `last + 1`. -/
lemma ratio_at_max (h : Histogram) (hstep : 0 < h.step)
    (hcoh : h.max = h.stats.min + h.step * ((h.last : ℚ) + 1)) :
    (h.max - h.stats.min) / h.step = (h.last : ℚ) + 1 := by
  rw [hcoh, add_sub_cancel_left, mul_div_cancel_left₀ _ (ne_of_gt hstep)]

/-! ### Concrete evaluations of the test histogram -/

/-- Fields of the freshly constructed test histogram. -/
lemma histT0_fields :
    histT0.stats = statsT ∧ histT0.step = 5 / 2 ∧ histT0.max = 18 ∧
      histT0.last = 7 := by
  refine ⟨rfl, rfl, ?_, ?_⟩
  · show statsT.min + 5 / 2 * (8 : ℕ) = 18
    norm_num [statsT]
  · show (8 + (USIZE - 1)) % USIZE = 7
    norm_num [USIZE]

/-- The slot sequence of the test samples. -/
lemma histT_slots :
    samplesT.map histT0.find_slot =
      [some 0, some 0, some 1, some 1, some 1, some 0, some 5, some 5,
       some 1, some 1, some 1, some 1, some 1] := by
  norm_num [samplesT, histT0, Histogram.new, statsT, Histogram.find_slot,
    f64ToUsize, USIZE]
  decide

/-- The fresh test histogram has eight zero counts. -/
lemma counts_histT0 : counts histT0 = List.replicate 8 0 :=
  mkBuckets_counts statsT.min (5 / 2) 8

/-- Counts of the loaded test histogram. -/
lemma counts_histT : counts histT = [3, 8, 0, 0, 0, 2, 0, 0] := by
  have hs := (load_simulate histT0 samplesT).1
  rw [histT_slots, counts_histT0] at hs
  rw [show histT = histT0.load samplesT from rfl, hs]
  decide

/-- `top` of the loaded test histogram. -/
lemma top_histT : histT.top = 8 := by
  have hs := (load_simulate histT0 samplesT).2
  rw [histT_slots, counts_histT0] at hs
  rw [show histT = histT0.load samplesT from rfl, hs]
  decide

/-- Ranges of the loaded test histogram. -/
lemma ranges_histT :
    histT.vec.map Bucket.range =
      [⟨-2, 1/2⟩, ⟨1/2, 3⟩, ⟨3, 11/2⟩, ⟨11/2, 8⟩, ⟨8, 21/2⟩, ⟨21/2, 13⟩,
       ⟨13, 31/2⟩, ⟨31/2, 18⟩] := by
  rw [show histT = histT0.load samplesT from rfl, ranges_load]
  norm_num [histT0, Histogram.new, statsT, mkBuckets, Bucket.new]

/-- The full bucket list of the loaded test histogram. -/
lemma vec_histT :
    histT.vec =
      [⟨⟨-2, 1/2⟩, 3⟩, ⟨⟨1/2, 3⟩, 8⟩, ⟨⟨3, 11/2⟩, 0⟩, ⟨⟨11/2, 8⟩, 0⟩,
       ⟨⟨8, 21/2⟩, 0⟩, ⟨⟨21/2, 13⟩, 2⟩, ⟨⟨13, 31/2⟩, 0⟩, ⟨⟨31/2, 18⟩, 0⟩] := by
  have h := zipWith_mk_range_count histT.vec
  have hc : List.map Bucket.count histT.vec = [3, 8, 0, 0, 0, 2, 0, 0] := counts_histT
  rw [ranges_histT, hc] at h
  exact h.symm

/-- Fields of the loaded test histogram. -/
lemma histT_fields : histT.stats = statsT ∧ histT.max = 18 := by
  obtain ⟨hmax, _, _, hstats⟩ := Histogram.load_fields histT0 samplesT
  exact ⟨hstats.trans histT0_fields.1, hmax.trans histT0_fields.2.2.1⟩

/-- `roundHalfEven` is the identity on integers. -/
lemma roundHalfEven_intCast (n : ℤ) : roundHalfEven ((n : ℚ)) = n := by
  unfold roundHalfEven
  rw [Int.floor_intCast]
  norm_num

/-- `fmt3` on a value that is an exact number of thousandths. -/
lemma fmt3_eval (q : ℚ) (n : ℤ) (h : q * 1000 = (n : ℚ)) :
    fmt3 q = fmtMilli n := by
  unfold fmt3
  rw [h, roundHalfEven_intCast]

/-- `{:.3}` rendering of `-2`. -/
lemma fmt3_m2 : fmt3 (-2) = "-2.000" := by
  rw [fmt3_eval (-2) (-2000) (by norm_num)]
  decide

/-- `{:.3}` rendering of `1/2`. -/
lemma fmt3_half : fmt3 (1 / 2) = "0.500" := by
  rw [fmt3_eval (1 / 2) 500 (by norm_num)]
  decide

/-- `{:.3}` rendering of `3`. -/
lemma fmt3_three : fmt3 3 = "3.000" := by
  rw [fmt3_eval 3 3000 (by norm_num)]
  decide

/-- `{:.3}` rendering of `18`. -/
lemma fmt3_eighteen : fmt3 18 = "18.000" := by
  rw [fmt3_eval 18 18000 (by norm_num)]
  decide

/-- The shared range-label width of the test histogram is 6. -/
lemma get_width_histT : HistWriter.get_width histT = 6 := by
  unfold HistWriter.get_width
  rw [histT_fields.1, histT_fields.2]
  have hmn : statsT.min = -2 := rfl
  rw [hmn, fmt3_m2, fmt3_eighteen]
  decide

/-- The count-label width of the test histogram is 1. -/
lemma width_count_histT : HistWriter.width_count histT = 1 := by
  unfold HistWriter.width_count
  rw [top_histT]
  decide

/-- At the default width 110, the divisor of the test histogram is 1. -/
lemma divisor_110_histT : HistWriter.divisor 110 histT = some 1 := by
  unfold HistWriter.divisor
  rw [get_width_histT, width_count_histT, top_histT]
  decide

/-- The rendered line of bucket 0 of the test histogram. -/
lemma lineT1 :
    HistWriter.write_bucket ⟨⟨-2, 1/2⟩, 3⟩ 1 6 1 = "[-2.000 ..  0.500] [3] ∎∎∎" := by
  simp only [HistWriter.write_bucket, fmt3_m2, fmt3_half]
  decide

/-- The rendered line of bucket 1 of the test histogram. -/
lemma lineT2 :
    HistWriter.write_bucket ⟨⟨1/2, 3⟩, 8⟩ 1 6 1 = "[ 0.500 ..  3.000] [8] ∎∎∎∎∎∎∎∎" := by
  simp only [HistWriter.write_bucket, fmt3_half, fmt3_three]
  decide

/-- Maximum of a zero-count list is zero. -/
lemma foldr_max_replicate_zero (n : ℕ) :
    (List.replicate n (0 : ℕ)).foldr Nat.max 0 = 0 := by
  induction n with
  | zero => rfl
  | succ n ih => simp [List.replicate_succ, ih]

/-- Sum of a zero-count list is zero. -/
lemma sum_replicate_zero (n : ℕ) : (List.replicate n (0 : ℕ)).sum = 0 := by
  induction n with
  | zero => rfl
  | succ n ih => simp [List.replicate_succ, ih]

/-- `histC70` projections. -/
lemma histC70_fields :
    histC70.step = 1 ∧ histC70.max = 1 ∧ histC70.last = 0 ∧
      histC70.vec.length = 1 := by
  refine ⟨rfl, ?_, ?_, mkBuckets_length _ _ _⟩
  · show (0 : ℚ) + 1 * (1 : ℕ) = 1
    norm_num
  · show (1 + (USIZE - 1)) % USIZE = 0
    norm_num [USIZE]

/-- The slot of the sample `1/2` in `histC70`. -/
lemma histC70_slot : histC70.find_slot (1 / 2) = some 0 := by
  norm_num [histC70, Histogram.new, Histogram.find_slot, f64ToUsize, USIZE]

/-- `top` of `histC7` is 10. -/
lemma top_histC7 : histC7.top = 10 := by
  have hs := (load_simulate histC70 (List.replicate 10 (1 / 2))).2
  have hmap : (List.replicate 10 (1 / 2 : ℚ)).map histC70.find_slot =
      List.replicate 10 (some 0) := by
    rw [List.map_replicate, histC70_slot]
  have hcounts : counts histC70 = List.replicate 1 0 :=
    mkBuckets_counts _ _ _
  rw [hmap, hcounts] at hs
  rw [show histC7 = histC70.load (List.replicate 10 (1 / 2)) from rfl, hs]
  decide

/-!
## Claim theorems
-/

/-- C1: for a constructed histogram (bucket list of length `last + 1`,
`last` a `usize` value, `step > 0`, `max = min + step * (last + 1)`) and
any sample `v`: when `min ≤ v ≤ max`, `add` increments exactly the bucket
at index `⌊(v - min) / step⌋` clamped to `[0, last]` (`Int.toNat` is the
clamp at 0, `min _ last` the clamp at `last`) and updates `top`; when `v`
is outside the closed range, `add` returns the histogram unchanged in
every field; and `v = max` resolves to the last bucket. -/
theorem add_slot_spec (h : Histogram) (v : ℚ)
    (hlen : h.vec.length = h.last + 1) (hU : h.last ≤ USIZE - 1)
    (hstep : 0 < h.step)
    (hcoh : h.max = h.stats.min + h.step * ((h.last : ℚ) + 1)) :
    (h.stats.min ≤ v → v ≤ h.max →
      h.find_slot v =
        some (min (Int.toNat ⌊(v - h.stats.min) / h.step⌋) h.last) ∧
      ∃ b, h.vec[min (Int.toNat ⌊(v - h.stats.min) / h.step⌋) h.last]? = some b ∧
        h.add v = { h with
          vec := h.vec.set (min (Int.toNat ⌊(v - h.stats.min) / h.step⌋) h.last) b.inc
          top := Nat.max h.top (b.count + 1) }) ∧
    ((v < h.stats.min ∨ h.max < v) → h.add v = h) ∧
    (v = h.max → h.find_slot v = some h.last) := by
  refine ⟨?_, fun hout => add_no_op h v hout, ?_⟩
  · intro hmin hmax
    have hfs := find_slot_in_range h v hU hstep hmin hmax
    have hklen : min (Int.toNat ⌊(v - h.stats.min) / h.step⌋) h.last < h.vec.length := by
      have := Nat.min_le_right (Int.toNat ⌊(v - h.stats.min) / h.step⌋) h.last
      omega
    obtain ⟨b, hb⟩ : ∃ b, h.vec[min (Int.toNat ⌊(v - h.stats.min) / h.step⌋) h.last]? = some b :=
      ⟨h.vec[min (Int.toNat ⌊(v - h.stats.min) / h.step⌋) h.last],
        List.getElem?_eq_getElem hklen⟩
    exact ⟨hfs, b, hb, add_eval h v _ b hfs hb⟩
  · intro hveq
    subst hveq
    have hminle : h.stats.min ≤ h.max := by
      rw [hcoh]
      have : (0 : ℚ) ≤ h.step * ((h.last : ℚ) + 1) :=
        mul_nonneg hstep.le (by positivity)
      linarith
    have hfloor : ⌊(h.max - h.stats.min) / h.step⌋ = (h.last : ℤ) + 1 := by
      rw [ratio_at_max h hstep hcoh,
        show ((h.last : ℚ) + 1) = (((h.last : ℤ) + 1 : ℤ) : ℚ) by push_cast; ring]
      exact Int.floor_intCast _
    rw [find_slot_in_range h h.max hU hstep hminle le_rfl, hfloor]
    have htn : Int.toNat ((h.last : ℤ) + 1) = h.last + 1 := by omega
    rw [htn, Nat.min_eq_right (Nat.le_succ _)]

/-- C1 witness: the single-bucket histogram over `[0, 1)` with the sample
`v = 1 = max`: the in-range branch resolves, and `v = max` lands in the
last bucket. -/
theorem add_slot_spec_witness :
    (histC70.find_slot 1 =
        some (min (Int.toNat ⌊((1 : ℚ) - histC70.stats.min) / histC70.step⌋) histC70.last) ∧
      ∃ b, histC70.vec[min (Int.toNat ⌊((1 : ℚ) - histC70.stats.min) / histC70.step⌋) histC70.last]? = some b ∧
        histC70.add 1 = { histC70 with
          vec := histC70.vec.set
            (min (Int.toNat ⌊((1 : ℚ) - histC70.stats.min) / histC70.step⌋) histC70.last) b.inc
          top := Nat.max histC70.top (b.count + 1) }) ∧
    histC70.find_slot 1 = some histC70.last := by
  have h1 : histC70.vec.length = histC70.last + 1 := by
    rw [histC70_fields.2.2.1]
    exact histC70_fields.2.2.2
  have h2 : histC70.last ≤ USIZE - 1 := by
    rw [histC70_fields.2.2.1]
    norm_num [USIZE]
  have h3 : 0 < histC70.step := by
    rw [histC70_fields.1]
    norm_num
  have h4 : histC70.max = histC70.stats.min + histC70.step * ((histC70.last : ℚ) + 1) := by
    rw [histC70_fields.2.1, histC70_fields.1, histC70_fields.2.2.1]
    norm_num [histC70, Histogram.new]
  have hm : histC70.stats.min ≤ (1 : ℚ) := by
    norm_num [histC70, Histogram.new]
  have hx : (1 : ℚ) ≤ histC70.max := by
    rw [histC70_fields.2.1]
  have hveq : (1 : ℚ) = histC70.max := by
    rw [histC70_fields.2.1]
  exact ⟨(add_slot_spec histC70 1 h1 h2 h3 h4).1 hm hx,
    (add_slot_spec histC70 1 h1 h2 h3 h4).2.2 hveq⟩

/-- C2: after any sequence of `add` calls on a constructed histogram,
`top` is the true maximum of the bucket counts; and `top` never decreases
across a single `add` (hence is monotone along any sequence). -/
theorem top_equals_max_counts (size : ℕ) (step : ℚ) (stats : Stats)
    (vs : List ℚ) (hsz : 0 < size) (hszU : size < USIZE) :
    ((Histogram.new size step stats).load vs).top =
      maxCounts ((Histogram.new size step stats).load vs) ∧
    ∀ (g : Histogram) (w : ℚ), g.top ≤ (g.add w).top := by
  refine ⟨?_, fun g w => add_top_mono g w⟩
  apply load_top_inv
  · rw [new_length, new_last size step stats hsz hszU]
    omega
  · show (Histogram.new size step stats).top = maxCounts (Histogram.new size step stats)
    unfold maxCounts
    rw [show counts (Histogram.new size step stats) = List.replicate size 0 from
      mkBuckets_counts _ _ _, foldr_max_replicate_zero]
    rfl

/-- C2 witness: the repository's test histogram. -/
theorem top_equals_max_counts_witness :
    ((Histogram.new 8 (5 / 2) statsT).load samplesT).top =
      maxCounts ((Histogram.new 8 (5 / 2) statsT).load samplesT) :=
  (top_equals_max_counts 8 (5 / 2) statsT samplesT (by norm_num)
    (by norm_num [USIZE])).1

/-- C3: the constructed buckets tile `[min, min + size*step)`: bucket `i`
is `[min + i*step, min + (i+1)*step)` with count 0, adjacent buckets
share an endpoint, bucket 0 starts at `min`, the last bucket ends at
`max`, and `max = min + size*step`. -/
theorem buckets_tile_range (size : ℕ) (step : ℚ) (stats : Stats)
    (hsz : 0 < size) :
    (Histogram.new size step stats).vec.length = size ∧
    (∀ i, i < size →
      (Histogram.new size step stats).vec[i]? =
        some ⟨⟨stats.min + (i : ℚ) * step, stats.min + ((i : ℚ) + 1) * step⟩, 0⟩) ∧
    (∀ i, i + 1 < size →
      ((Histogram.new size step stats).vec[i]?).map (fun b => b.range.stop) =
        ((Histogram.new size step stats).vec[i + 1]?).map (fun b => b.range.start)) ∧
    ((Histogram.new size step stats).vec[0]?).map (fun b => b.range.start) =
      some stats.min ∧
    ((Histogram.new size step stats).vec[size - 1]?).map (fun b => b.range.stop) =
      some (Histogram.new size step stats).max ∧
    (Histogram.new size step stats).max = stats.min + (size : ℚ) * step := by
  have hv : (Histogram.new size step stats).vec = mkBuckets stats.min step size := rfl
  refine ⟨new_length _ _ _, ?_, ?_, ?_, ?_, ?_⟩
  · intro i hi
    exact mkBuckets_getElem? step size stats.min i hi
  · intro i hi
    rw [hv, mkBuckets_getElem? step size stats.min i (by omega),
      mkBuckets_getElem? step size stats.min (i + 1) hi]
    simp only [Option.map_some']
    congr 1
    push_cast
    ring
  · rw [hv, mkBuckets_getElem? step size stats.min 0 hsz]
    simp
  · rw [hv, mkBuckets_getElem? step size stats.min (size - 1) (by omega)]
    simp only [Option.map_some', Option.some.injEq]
    show stats.min + (((size - 1 : ℕ) : ℚ) + 1) * step = stats.min + step * (size : ℚ)
    rw [Nat.cast_sub (by omega : 1 ≤ size)]
    push_cast
    ring
  · show stats.min + step * (size : ℚ) = stats.min + (size : ℚ) * step
    ring

/-- C3 witness: the test histogram's construction parameters. -/
theorem buckets_tile_range_witness :
    (Histogram.new 8 (5 / 2) statsT).vec.length = 8 ∧
    ((Histogram.new 8 (5 / 2) statsT).vec[0]?).map (fun b => b.range.start) =
      some statsT.min := by
  have h := buckets_tile_range 8 (5 / 2) statsT (by norm_num)
  exact ⟨h.1, h.2.2.2.1⟩

/-- C4 counterexample: `Histogram::new` does not fail on `step ≤ 0` or
`size == 0`: with `size = 8, step = -5/2` it builds all 8 buckets and
stores the non-positive step; with `step = 0` it likewise constructs; with
`size = 0` it constructs an empty bucket list whose `last` index has
wrapped to `usize::MAX` instead of being rejected. -/
theorem new_accepts_invalid_args :
    (Histogram.new 8 (-(5 / 2)) statsT).vec.length = 8 ∧
    (Histogram.new 8 (-(5 / 2)) statsT).step = -(5 / 2) ∧
    (Histogram.new 8 0 statsT).step = 0 ∧
    (Histogram.new 0 1 statsT).vec = [] ∧
    (Histogram.new 0 1 statsT).last = USIZE - 1 := by
  refine ⟨new_length _ _ _, rfl, rfl, rfl, ?_⟩
  show (0 + (USIZE - 1)) % USIZE = USIZE - 1
  norm_num [USIZE]

/-- C4 (amended): construction performs no argument validation: for every
`size` and `step` — also `step ≤ 0` — it returns a normally constructed
histogram with `size` buckets and `top = 0`; for `size = 0` the `usize`
subtraction `size - 1` wraps (release build) to `usize::MAX = 2^64 - 1`
rather than failing. -/
theorem new_performs_no_validation (size : ℕ) (step : ℚ) (stats : Stats) :
    (Histogram.new size step stats).vec.length = size ∧
    (Histogram.new size step stats).top = 0 ∧
    (Histogram.new size step stats).step = step ∧
    (Histogram.new 0 step stats).last = USIZE - 1 := by
  refine ⟨new_length _ _ _, rfl, rfl, ?_⟩
  show (0 + (USIZE - 1)) % USIZE = USIZE - 1
  norm_num [USIZE]

/-- C5: the fallback in `get_max_bar_len` uses a strict `<`, so at target
width exactly `range_label_width + count_label_width + 10` (17 for the
test histogram: 6 + 1 + 10) the bar length is 0 and the divisor
computation `hist.top / 0` divides by zero (a `usize` division panic,
modelled as `none`); the claimed `maxBarLength ≥ 1` is violated.  The
degenerate `top = 0` part of the claim does hold: the unloaded test
histogram gets count-label width 1, divisor 1, and empty bars. -/
theorem renderer_divides_by_zero :
    HistWriter.get_max_bar_len 17
        (HistWriter.get_width histT + HistWriter.width_count histT) = 0 ∧
    HistWriter.divisor 17 histT = none ∧
    HistWriter.write 17 histT = none ∧
    HistWriter.width_count histT0 = 1 ∧
    HistWriter.divisor 110 histT0 = some 1 ∧
    HistWriter.bar_of 0 1 = "" := by
  have h0 : HistWriter.get_max_bar_len 17
      (HistWriter.get_width histT + HistWriter.width_count histT) = 0 := by
    rw [get_width_histT, width_count_histT]
    decide
  have hdiv : HistWriter.divisor 17 histT = none := by
    unfold HistWriter.divisor
    rw [get_width_histT, width_count_histT]
    decide
  have hw : HistWriter.write 17 histT = none := by
    unfold HistWriter.write
    rw [hdiv]
    rfl
  have hwc0 : HistWriter.width_count histT0 = 1 := by
    unfold HistWriter.width_count
    show Nat.max (ceilLog10 0) 1 = 1
    decide
  have hgw0 : HistWriter.get_width histT0 = 6 := by
    unfold HistWriter.get_width
    rw [histT0_fields.2.2.1, show histT0.stats.min = (-2 : ℚ) from rfl,
      fmt3_m2, fmt3_eighteen]
    decide
  have hdiv0 : HistWriter.divisor 110 histT0 = some 1 := by
    unfold HistWriter.divisor
    rw [hgw0, hwc0]
    show (if (75 : ℕ) = 0 then none else some (Nat.max 1 (histT0.top / 75))) = some 1
    decide
  exact ⟨h0, hdiv, hw, hwc0, hdiv0, rfl⟩

/-- C6: the total of the bucket counts after `load` is exactly the number
of samples inside `[min, max]`; and each in-range `add` bumps exactly one
bucket count by one, leaving every other count untouched. -/
theorem add_increments_exactly_one (size : ℕ) (step : ℚ) (stats : Stats)
    (vs : List ℚ) (hsz : 0 < size) (hszU : size < USIZE) :
    sumCounts ((Histogram.new size step stats).load vs) =
      (vs.filter (fun v =>
        decide ((Histogram.new size step stats).stats.min ≤ v ∧
          v ≤ (Histogram.new size step stats).max))).length ∧
    ∀ (g : Histogram) (w : ℚ), g.vec.length = g.last + 1 →
      g.stats.min ≤ w → w ≤ g.max →
      ∃ k c, g.find_slot w = some k ∧ (counts g)[k]? = some c ∧
        counts (g.add w) = (counts g).set k (c + 1) ∧
        ∀ j, j ≠ k → (counts (g.add w))[j]? = (counts g)[j]? := by
  constructor
  · have hlen : (Histogram.new size step stats).vec.length =
        (Histogram.new size step stats).last + 1 := by
      rw [new_length, new_last size step stats hsz hszU]
      omega
    have hs := load_sum vs (Histogram.new size step stats) hlen
    have hsum0 : sumCounts (Histogram.new size step stats) = 0 := by
      unfold sumCounts
      rw [show counts (Histogram.new size step stats) = List.replicate size 0 from
        mkBuckets_counts _ _ _, sum_replicate_zero]
    rw [hsum0, zero_add] at hs
    exact hs
  · intro g w hglen hmin hmax
    have hnone : ¬(w < g.stats.min ∨ g.max < w) := by
      push_neg
      exact ⟨hmin, hmax⟩
    cases hfs : g.find_slot w with
    | none => exact absurd ((g.find_slot_eq_none w).mp hfs) hnone
    | some k =>
      have hk : k ≤ g.last := g.find_slot_le_last hfs
      have hklen : k < (counts g).length := by
        simp only [counts, List.length_map]
        omega
      obtain ⟨c, hc⟩ : ∃ c, (counts g)[k]? = some c :=
        ⟨(counts g)[k], List.getElem?_eq_getElem hklen⟩
      refine ⟨k, c, rfl, hc, ?_, ?_⟩
      · rw [add_counts_eq, hfs]
        simp [stepCounts, hc]
      · intro j hj
        rw [add_counts_eq, hfs]
        simp only [stepCounts, hc]
        exact List.getElem?_set_ne (Ne.symm hj)

/-- C6 witness: the test histogram; all 13 samples are in range, and the
counts sum to 13. -/
theorem add_increments_exactly_one_witness :
    sumCounts ((Histogram.new 8 (5 / 2) statsT).load samplesT) =
      (samplesT.filter (fun v =>
        decide ((Histogram.new 8 (5 / 2) statsT).stats.min ≤ v ∧
          v ≤ (Histogram.new 8 (5 / 2) statsT).max))).length :=
  (add_increments_exactly_one 8 (5 / 2) statsT samplesT (by norm_num)
    (by norm_num [USIZE])).1

/-- C7 counterexample: at `top = 10` the count-label width is
`max(1, ceil(log10 10)) = 1`, but printing the count `10` (as the bucket
lines do, via `Nat.repr`) needs 2 digits — so the width is not "the number
of digits needed to print the largest bucket count". -/
theorem width_count_not_digit_count :
    histC7.top = 10 ∧ HistWriter.width_count histC7 = 1 ∧
    (Nat.repr histC7.top).length = 2 := by
  refine ⟨top_histC7, ?_, ?_⟩
  · unfold HistWriter.width_count
    rw [top_histC7]
    decide
  · rw [top_histC7]
    decide

/-- C7 (amended): the count-label width is `max(1, ⌈log10 top⌉)`
(`Nat.clog 10`), and it is 1 whenever `top ≤ 1`.  (It is not always the
digit count of `top`: at an exact positive power of ten it is one less —
see the counterexample.) -/
theorem width_count_formula (h : Histogram) :
    HistWriter.width_count h = Nat.max 1 (Nat.clog 10 h.top) ∧
    (h.top ≤ 1 → HistWriter.width_count h = 1) := by
  have hbase : HistWriter.width_count h = Nat.max 1 (Nat.clog 10 h.top) := by
    unfold HistWriter.width_count
    rw [ceilLog10_eq_clog]
    exact Nat.max_comm _ _
  refine ⟨hbase, fun h1 => ?_⟩
  rw [hbase, Nat.clog_of_right_le_one h1]
  decide

/-- C7 witness: the unloaded test histogram has `top = 0 ≤ 1` and width 1. -/
theorem width_count_formula_witness : HistWriter.width_count histT0 = 1 :=
  (width_count_formula histT0).2 (by decide)

/-- C8: the bar-length budget matches the spec formula (fallback 75 when
the target width is below `rangeLabelWidth + countLabelWidth + 10`, else
the difference); whenever that budget is nonzero the divisor is
`max(1, top / maxBarLength)` with integer division; each bucket's bar has
`count / divisor` glyphs; and rendering without a width uses 110. -/
theorem layout_formulas (h : Histogram) (w c d : ℕ)
    (hm : HistWriter.get_max_bar_len w
        (HistWriter.get_width h + HistWriter.width_count h) ≠ 0) :
    HistWriter.get_max_bar_len w
        (HistWriter.get_width h + HistWriter.width_count h) =
      specMaxBarLength w (HistWriter.get_width h) (HistWriter.width_count h) ∧
    HistWriter.divisor w h =
      some (Nat.max 1 (h.top /
        HistWriter.get_max_bar_len w
          (HistWriter.get_width h + HistWriter.width_count h))) ∧
    (HistWriter.bar_of c d).length = c / d ∧
    Histogram.render h none = HistWriter.write 110 h := by
  refine ⟨?_, ?_, ?_, rfl⟩
  · unfold HistWriter.get_max_bar_len specMaxBarLength
    split_ifs with h1
    · rfl
    · omega
  · unfold HistWriter.divisor
    rw [if_neg hm]
  · simp [HistWriter.bar_of]

/-- C8 witness: the test histogram at the default width 110 (bar budget
93, divisor 1), and an 8-count bucket at divisor 1 yielding 8 glyphs. -/
theorem layout_formulas_witness :
    HistWriter.get_max_bar_len 110
        (HistWriter.get_width histT + HistWriter.width_count histT) =
      specMaxBarLength 110 (HistWriter.get_width histT)
        (HistWriter.width_count histT) ∧
    HistWriter.divisor 110 histT =
      some (Nat.max 1 (histT.top /
        HistWriter.get_max_bar_len 110
          (HistWriter.get_width histT + HistWriter.width_count histT))) ∧
    (HistWriter.bar_of 8 1).length = 8 / 1 := by
  have hm : HistWriter.get_max_bar_len 110
      (HistWriter.get_width histT + HistWriter.width_count histT) ≠ 0 := by
    rw [get_width_histT, width_count_histT]
    decide
  have h := layout_formulas histT 110 8 1 hm
  exact ⟨h.1, h.2.1, h.2.2.1⟩

/-- C9: the test scenario `min = -2, size = 8, step = 5/2` (so
`max = 18`), loaded with the 13 test samples: bucket 0 is `[-2, 1/2)` with
count 3, bucket 1 is `[1/2, 3)` with count 8, `top = 8`; and the default
(110-column) rendering — where the divisor resolves to 1 — contains the
two expected lines. -/
theorem concrete_scenario :
    histT.max = 18 ∧
    histT.vec[0]? = some ⟨⟨-2, 1/2⟩, 3⟩ ∧
    histT.vec[1]? = some ⟨⟨1/2, 3⟩, 8⟩ ∧
    histT.top = 8 ∧
    ∃ lines, Histogram.render histT none = some lines ∧
      "[-2.000 ..  0.500] [3] ∎∎∎" ∈ lines ∧
      "[ 0.500 ..  3.000] [8] ∎∎∎∎∎∎∎∎" ∈ lines := by
  refine ⟨histT_fields.2, ?_, ?_, top_histT, ?_⟩
  · rw [vec_histT]
    rfl
  · rw [vec_histT]
    rfl
  · have hrender : Histogram.render histT none =
        some (HistWriter.header 1 ::
          histT.vec.map (fun b => HistWriter.write_bucket b 1
            (HistWriter.get_width histT) (HistWriter.width_count histT))) := by
      show HistWriter.write 110 histT = _
      unfold HistWriter.write
      rw [divisor_110_histT]
      rfl
    refine ⟨_, hrender, ?_, ?_⟩
    · rw [vec_histT, get_width_histT, width_count_histT]
      simp only [List.map_cons, List.map_nil, lineT1]
      exact List.mem_cons_of_mem _ (List.mem_cons_self _ _)
    · rw [vec_histT, get_width_histT, width_count_histT]
      simp only [List.map_cons, List.map_nil, lineT2]
      exact List.mem_cons_of_mem _ (List.mem_cons_of_mem _ (List.mem_cons_self _ _))

/-- C10: `add(NaN)` is not a no-op.  NaN fails both rejection comparisons
(`NaN < min` and `NaN > max` are false), `find_slot` computes the cast of
the NaN ratio, which is 0, so bucket 0 is incremented (and `top` updated)
even though NaN is not in `[min, max]`. -/
theorem add_nan_hits_bucket_zero (h : Histogram)
    (hlen : h.vec.length = h.last + 1) :
    fltF none h.stats.min = false ∧ fgtF none h.max = false ∧
    h.find_slotF none = some 0 ∧
    ∃ b, h.vec[0]? = some b ∧
      h.addF none = { h with vec := h.vec.set 0 b.inc
                             top := Nat.max h.top (b.count + 1) } := by
  have hfs : h.find_slotF none = some 0 := by
    unfold Histogram.find_slotF
    simp [fltF, fgtF, fsubF, fdivF, f64ToUsizeF]
  have h0 : 0 < h.vec.length := by omega
  obtain ⟨b, hb⟩ : ∃ b, h.vec[0]? = some b :=
    ⟨h.vec[0], List.getElem?_eq_getElem h0⟩
  refine ⟨rfl, rfl, hfs, b, hb, ?_⟩
  simp [Histogram.addF, hfs, hb, Bucket.inc]

/-- C10 witness: on the freshly built test histogram, `add(NaN)` resolves
to bucket 0. -/
theorem add_nan_hits_bucket_zero_witness :
    histT0.find_slotF none = some 0 := by
  have hlen : histT0.vec.length = histT0.last + 1 := by
    rw [histT0_fields.2.2.2]
    exact new_length 8 (5 / 2) statsT
  exact (add_nan_hits_bucket_zero histT0 hlen).2.2.1
